import Mathlib

/-!
Verification of the counter and histogram data-structure contracts of the
rpc-perf cdatastructures FFI surface.  The repository excerpt contains only
the C declarations (counter.h, histogram.h) and a demo caller (example.c);
the data-structure behaviour itself is specified in spec.md, so the
operational definitions below are modelled from the spec and checked
against the properties it states.
-/

/-- Modelled from the spec: the operations of the atomic Counter
(counter.h declares counter_new, counter_count, counter_clear,
counter_decr, counter_incr; the implementation is not part of the
excerpt).  The counter state is a signed wide integer, created at zero. -/
def counter_new : Int := 0

/-- Modelled from the spec: increment(n) adds n to the value. -/
def counter_incr (v : Int) (n : Nat) : Int := v + n

/-- Modelled from the spec: decrement(n) subtracts n from the value; the
spec's documented policy lets a signed value go negative. -/
def counter_decr (v : Int) (n : Nat) : Int := v - n

/-- Modelled from the spec: clear() resets the value to zero. -/
def counter_clear (_ : Int) : Int := 0

/-- Modelled from the spec: count() returns the current value. -/
def counter_count (v : Int) : Int := v

/-- A single counter API call, as issued by a caller of counter.h. -/
inductive CounterOp where
  | incr (n : Nat)
  | decr (n : Nat)
  | clear
deriving DecidableEq, Repr

/-- Apply one counter operation to the current value. -/
def counterStep (v : Int) : CounterOp → Int
  | CounterOp.incr n => counter_incr v n
  | CounterOp.decr n => counter_decr v n
  | CounterOp.clear => counter_clear v

/-- Run a sequence of counter operations on a freshly created counter. -/
def counterRun (l : List CounterOp) : Int := l.foldl counterStep counter_new

/-- The signed delta contributed by one operation (clear contributes 0;
it is excluded where the net-sum reading matters). -/
def opDelta : CounterOp → Int
  | CounterOp.incr n => (n : Int)
  | CounterOp.decr n => -(n : Int)
  | CounterOp.clear => 0

/-- One step of the bookkeeping that keeps the operations issued since the
most recent clear. -/
def segStep (acc : List CounterOp) : CounterOp → List CounterOp
  | CounterOp.clear => []
  | op => acc.concat op

/-- The suffix of operations issued since the most recent clear
(the whole history when no clear occurred). -/
def sinceLastClear (l : List CounterOp) : List CounterOp := l.foldl segStep []

/-- Errors of the histogram API as named by the spec. -/
inductive HistError where
  | InvalidRange
  | EmptyHistogram
deriving DecidableEq, Repr

/-- Construction parameters of a histogram: lowest trackable value,
highest trackable value, significant figures. -/
structure HistConfig where
  low : Nat
  high : Nat
  sigfig : Nat
deriving DecidableEq, Repr

/-- The construction parameters the spec declares valid:
low < high and significant figures within 1..5. -/
def ValidCfg (cfg : HistConfig) : Prop :=
  cfg.low < cfg.high ∧ 1 ≤ cfg.sigfig ∧ cfg.sigfig ≤ 5

/-- Modelled from the spec: the histogram state is a fixed configuration,
per-bucket counts (all indices outside the used range stay zero), and the
running total of samples (histogram.h only declares the operations; the
implementation is not part of the excerpt). -/
structure Histogram where
  cfg : HistConfig
  counts : Nat → Nat
  total : Nat

/-- Fuel-driven base-two logarithm (floor), written structurally so that
it evaluates inside the kernel. -/
def log2Go : Nat → Nat → Nat
  | 0, _ => 0
  | fuel + 1, n => if n ≤ 1 then 0 else log2Go fuel (n / 2) + 1

/-- Base-two logarithm (floor) of n, zero for n = 0. -/
def natLog2 (n : Nat) : Nat := log2Go n n

/-- Ceiling division: the least n with a <= n * b (for b > 0). -/
def ceilNatDiv (a b : Nat) : Nat := (a + b - 1) / b

/-- Base-two magnitude of the sub-bucket resolution: the number of
sub-buckets per octave is 2 ^ sbcLog, the least power of two at or above
2 * 10 ^ significant_figures, giving relative precision finer than
10 ^ (-significant_figures). -/
def sbcLog (sf : Nat) : Nat := natLog2 (2 * 10 ^ sf - 1) + 1

/-- Half the sub-bucket count: the number of distinct buckets per octave
in the logarithmic region. -/
def subHalf (sf : Nat) : Nat := 2 ^ (sbcLog sf - 1)

/-- The sub-bucket count: values below it get one bucket each. -/
def subBucketCount (sf : Nat) : Nat := 2 ^ sbcLog sf

/-- Modelled from the spec: the deterministic logarithmic/linear hybrid
bucket mapping derived from significant_figures.  Values below the
sub-bucket count map to themselves (linear region); a larger value of
magnitude e maps into the octave bucket block for e with linear
sub-bucket resolution 2 ^ (e + 1 - sbcLog) inside the octave. -/
def bucketIndexRaw (sf v : Nat) : Nat :=
  if v < subBucketCount sf then v
  else
    (natLog2 v - sbcLog sf + 1) * subHalf sf +
      v / 2 ^ (natLog2 v - sbcLog sf + 1)

/-- The representative (lower bound) of a bucket: the smallest value that
maps to the given bucket index. -/
def bucketLowerBound (sf i : Nat) : Nat :=
  if i < subBucketCount sf then i
  else (subHalf sf + i % subHalf sf) * 2 ^ (i / subHalf sf - 1)

/-- Modelled from the spec: values outside the tracked range are clamped
to the nearest boundary of [low, high] before bucketing. -/
def clampValue (cfg : HistConfig) (v : Nat) : Nat :=
  max cfg.low (min v cfg.high)

/-- The bucket index an observed value is recorded under. -/
def bucket_of (cfg : HistConfig) (v : Nat) : Nat :=
  bucketIndexRaw cfg.sigfig (clampValue cfg v)

/-- The number of buckets: one past the index of the highest trackable
value. -/
def bucketCount (cfg : HistConfig) : Nat :=
  bucketIndexRaw cfg.sigfig cfg.high + 1

/-- Modelled from the spec: construction validates low < high and
significant figures in 1..5, failing with InvalidRange otherwise; on
success all buckets and the total are zero. -/
def histogram_new (low high sf : Nat) : Except HistError Histogram :=
  if low < high ∧ 1 ≤ sf ∧ sf ≤ 5 then
    Except.ok ⟨⟨low, high, sf⟩, fun _ => 0, 0⟩
  else Except.error HistError.InvalidRange

/-- Modelled from the spec: increment(value, count) adds count to the
bucket of the (clamped) value and to total_samples. -/
def histogram_incr (h : Histogram) (v c : Nat) : Histogram :=
  ⟨h.cfg,
    Function.update h.counts (bucket_of h.cfg v)
      (h.counts (bucket_of h.cfg v) + c),
    h.total + c⟩

/-- Modelled from the spec: decrement(value, count) removes count from
the bucket of the (clamped) value, clamping at zero instead of wrapping;
total_samples drops by the amount actually removed. -/
def histogram_decr (h : Histogram) (v c : Nat) : Histogram :=
  ⟨h.cfg,
    Function.update h.counts (bucket_of h.cfg v)
      (h.counts (bucket_of h.cfg v) - min c (h.counts (bucket_of h.cfg v))),
    h.total - min c (h.counts (bucket_of h.cfg v))⟩

/-- Modelled from the spec: clear() resets all buckets and the total to
zero. -/
def histogram_clear (h : Histogram) : Histogram := ⟨h.cfg, fun _ => 0, 0⟩

/-- Modelled from the spec: samples() returns total_samples. -/
def histogram_samples (h : Histogram) : Nat := h.total

/-- Modelled from the spec: count(value) returns the raw count of the
bucket containing value. -/
def histogram_count (h : Histogram) (v : Nat) : Nat :=
  h.counts (bucket_of h.cfg v)

/-- Cumulative sample count through bucket i inclusive. -/
def cumCount (h : Histogram) (i : Nat) : Nat :=
  ∑ j ∈ Finset.range (i + 1), h.counts j

/-- The sum of all per-bucket counts. -/
def sumCounts (h : Histogram) : Nat :=
  ∑ j ∈ Finset.range (bucketCount h.cfg), h.counts j

/-- The state invariant of a histogram reachable through the API: the
configuration is valid, total_samples equals the sum of all bucket
counts, and no count sits outside the buckets of [low, high]. -/
def histInv (h : Histogram) : Prop :=
  ValidCfg h.cfg ∧ h.total = sumCounts h ∧
    ∀ j, (j < bucketIndexRaw h.cfg.sigfig h.cfg.low ∨
        bucketIndexRaw h.cfg.sigfig h.cfg.high < j) → h.counts j = 0

/-- Linear scan for the first bucket index (starting at i, for at most
fuel steps) whose cumulative count reaches the threshold t. -/
def crossingGo (h : Histogram) (t : Nat) : Nat → Nat → Nat
  | 0, i => i
  | fuel + 1, i => if t ≤ cumCount h i then i else crossingGo h t fuel (i + 1)

/-- The sample-count threshold a percentile query scans for: the ceiling
of p * total_samples, and at least one sample so that p = 0 reports the
minimum observed value rather than the bottom of the range. -/
def percentileThreshold (h : Histogram) (p : ℚ) : Nat :=
  max 1 (ceilNatDiv (p.num.toNat * h.total) p.den)

/-- Modelled from the spec: percentile(p) fails with EmptyHistogram when
total_samples is zero and otherwise reports the representative (lower
bound, clamped into the tracked range) of the first bucket whose
cumulative sample count reaches the threshold. -/
def histogram_percentile (h : Histogram) (p : ℚ) : Except HistError Nat :=
  if h.total = 0 then Except.error HistError.EmptyHistogram
  else
    Except.ok (max h.cfg.low (bucketLowerBound h.cfg.sigfig
      (crossingGo h (percentileThreshold h p) (bucketCount h.cfg) 0)))

/-- The set the percentile scan minimizes over: tracked values whose
bucket's cumulative count reaches the threshold t. -/
def trackedCrossingSet (h : Histogram) (t : Nat) : Set Nat :=
  {u | h.cfg.low ≤ u ∧ u ≤ h.cfg.high ∧ t ≤ cumCount h (bucket_of h.cfg u)}

/-- The set named by the spec's own words for percentile(p): tracked
values whose bucket's cumulative sample count is at least
p * total_samples. -/
def specCrossingSet (h : Histogram) (p : ℚ) : Set Nat :=
  {u | h.cfg.low ≤ u ∧ u ≤ h.cfg.high ∧
    p * (histogram_samples h : ℚ) ≤ (cumCount h (bucket_of h.cfg u) : ℚ)}

/-- A single histogram API call, as issued by a caller of histogram.h. -/
inductive HistOp where
  | incr (v c : Nat)
  | decr (v c : Nat)
  | clear
deriving DecidableEq, Repr

/-- Apply one histogram operation. -/
def applyHistOp (h : Histogram) : HistOp → Histogram
  | HistOp.incr v c => histogram_incr h v c
  | HistOp.decr v c => histogram_decr h v c
  | HistOp.clear => histogram_clear h

/-- Run a sequence of histogram operations. -/
def runHistOps (h : Histogram) (l : List HistOp) : Histogram :=
  l.foldl applyHistOp h

/-- A concrete histogram over [1, 100] with one significant figure and a
single sample recorded at value 50. -/
def exampleHist : Histogram :=
  histogram_incr ⟨⟨1, 100, 1⟩, fun _ => 0, 0⟩ 50 1

/-- The kind of datum a C function hands back: an integer value or a
pointer to one. -/
inductive CReturnKind where
  | intValue
  | pointerValue
deriving DecidableEq, Repr

/-- Return kind of counter_count as declared in counter.h line 18: a
pointer (the declaration reads as a uintptr_t pointer, not a plain
integer). -/
def counter_count_declared_return : CReturnKind := CReturnKind.pointerValue

/-- Return kind counter_count's result is consumed as in example.c line
25: printf %d treats it as a plain integer value. -/
def counter_count_example_return : CReturnKind := CReturnKind.intValue

lemma log2Go_eq (fuel : Nat) : ∀ n, n ≤ fuel → log2Go fuel n = Nat.log 2 n := by
  induction fuel with
  | zero =>
    intro n hn
    have hn0 : n = 0 := by omega
    subst hn0
    simp [log2Go]
  | succ f ih =>
    intro n hn
    by_cases h1 : n ≤ 1
    · simp only [log2Go, if_pos h1]
      rw [eq_comm, Nat.log_eq_zero_iff]
      left
      omega
    · simp only [log2Go, if_neg h1]
      have hdiv : n / 2 ≤ f := by
        have := Nat.div_lt_self (by omega : 0 < n) (by norm_num : 1 < 2)
        omega
      rw [ih _ hdiv, Nat.log_div_base]
      have hpos : 0 < Nat.log 2 n := Nat.log_pos (by norm_num) (by omega)
      omega

lemma natLog2_eq (n : Nat) : natLog2 n = Nat.log 2 n := log2Go_eq n n le_rfl

lemma one_le_sbcLog (sf : Nat) : 1 ≤ sbcLog sf := by
  unfold sbcLog
  omega

lemma subHalf_pos (sf : Nat) : 0 < subHalf sf := pow_pos (by norm_num) _

lemma two_mul_subHalf (sf : Nat) : subBucketCount sf = 2 * subHalf sf := by
  obtain ⟨m, hm⟩ : ∃ m, sbcLog sf = m + 1 :=
    ⟨sbcLog sf - 1, by have := one_le_sbcLog sf; omega⟩
  unfold subBucketCount subHalf
  rw [hm]
  simp [pow_succ, Nat.mul_comm]

lemma subBucketCount_pos (sf : Nat) : 0 < subBucketCount sf :=
  pow_pos (by norm_num) _

lemma mul_pred_div (a b : Nat) (ha : 0 < a) : (a * b - 1) / a = b - 1 := by
  obtain ⟨b', rfl⟩ | rfl : (∃ b', b = b' + 1) ∨ b = 0 := by
    rcases b with _ | b'
    · exact Or.inr rfl
    · exact Or.inl ⟨b', rfl⟩
  · have h : a * (b' + 1) - 1 = (a - 1) + a * b' := by
      have : a * (b' + 1) = a * b' + a := by ring
      omega
    rw [h, Nat.add_mul_div_left _ _ ha, Nat.div_eq_of_lt (by omega)]
    omega
  · simp

lemma bucketIndexRaw_of_le (sf v : Nat) (hv : subBucketCount sf ≤ v) :
    ∃ d, Nat.log 2 v = sbcLog sf + d ∧
      bucketIndexRaw sf v = (d + 1) * subHalf sf + v / 2 ^ (d + 1) ∧
      subHalf sf ≤ v / 2 ^ (d + 1) ∧
      v / 2 ^ (d + 1) < 2 * subHalf sf := by
  have hs : 0 < subBucketCount sf := subBucketCount_pos sf
  have hvpos : v ≠ 0 := by omega
  have hK1 : 1 ≤ sbcLog sf := one_le_sbcLog sf
  have hK : sbcLog sf ≤ Nat.log 2 v := by
    rw [← Nat.pow_le_iff_le_log (by norm_num) hvpos]
    exact hv
  refine ⟨Nat.log 2 v - sbcLog sf, by omega, ?_, ?_, ?_⟩
  · unfold bucketIndexRaw
    rw [if_neg (by omega), natLog2_eq]
  · rw [Nat.le_div_iff_mul_le (pow_pos (by norm_num) _)]
    have h1 : subHalf sf * 2 ^ (Nat.log 2 v - sbcLog sf + 1)
        = 2 ^ (Nat.log 2 v) := by
      unfold subHalf
      rw [← pow_add]
      congr 1
      omega
    rw [h1]
    exact Nat.pow_log_le_self 2 hvpos
  · rw [Nat.div_lt_iff_lt_mul (pow_pos (by norm_num) _)]
    have h1 : 2 * subHalf sf * 2 ^ (Nat.log 2 v - sbcLog sf + 1)
        = 2 ^ (Nat.log 2 v + 1) := by
      rw [← two_mul_subHalf]
      unfold subBucketCount
      rw [← pow_add]
      congr 1
      omega
    rw [h1]
    exact Nat.lt_pow_succ_log_self (by norm_num) v

lemma bucketIndexRaw_sbc (sf : Nat) :
    bucketIndexRaw sf (subBucketCount sf) = subBucketCount sf := by
  obtain ⟨d, hlog, hidx, hlo, hhi⟩ := bucketIndexRaw_of_le sf _ le_rfl
  have hlogs : Nat.log 2 (subBucketCount sf) = sbcLog sf := by
    unfold subBucketCount
    exact Nat.log_pow (by norm_num) _
  have hd0 : d = 0 := by omega
  subst hd0
  rw [hidx]
  have h2 : subBucketCount sf = 2 * subHalf sf := two_mul_subHalf sf
  have hdiv : subBucketCount sf / 2 ^ 1 = subHalf sf := by
    rw [h2, pow_one, Nat.mul_div_cancel_left _ (by norm_num)]
  rw [hdiv]
  omega

lemma bucketIndexRaw_le_succ (sf v : Nat) :
    bucketIndexRaw sf v ≤ bucketIndexRaw sf (v + 1) := by
  by_cases h1 : v + 1 < subBucketCount sf
  · have h0 : v < subBucketCount sf := by omega
    simp only [bucketIndexRaw, if_pos h0, if_pos h1]
    omega
  · by_cases h0 : v < subBucketCount sf
    · have hve : v + 1 = subBucketCount sf := by omega
      rw [hve, bucketIndexRaw_sbc]
      simp only [bucketIndexRaw, if_pos h0]
      omega
    · push_neg at h0 h1
      obtain ⟨d, hlog, hidx, hlo, hhi⟩ := bucketIndexRaw_of_le sf v h0
      by_cases hsame : Nat.log 2 (v + 1) = Nat.log 2 v
      · obtain ⟨d', hlog', hidx', hlo', hhi'⟩ := bucketIndexRaw_of_le sf (v + 1) h1
        have hdd : d' = d := by omega
        rw [hidx, hidx', hdd]
        have hdivle : v / 2 ^ (d + 1) ≤ (v + 1) / 2 ^ (d + 1) :=
          Nat.div_le_div_right (by omega)
        omega
      · have hK1 : 1 ≤ sbcLog sf := one_le_sbcLog sf
        have hmono : Nat.log 2 v ≤ Nat.log 2 (v + 1) :=
          Nat.log_mono_right (by omega)
        have hlt : Nat.log 2 v + 1 ≤ Nat.log 2 (v + 1) := by omega
        have hup : v < 2 ^ (Nat.log 2 v + 1) :=
          Nat.lt_pow_succ_log_self (by norm_num) v
        have hlow2 : 2 ^ (Nat.log 2 (v + 1)) ≤ v + 1 :=
          Nat.pow_log_le_self 2 (by omega)
        have hge : 2 ^ (Nat.log 2 v + 1) ≤ 2 ^ (Nat.log 2 (v + 1)) :=
          Nat.pow_le_pow_right (by norm_num) hlt
        have heq : v + 1 = 2 ^ (Nat.log 2 v + 1) := by omega
        have hlogsucc : Nat.log 2 (v + 1) = Nat.log 2 v + 1 := by
          rw [heq, Nat.log_pow (by norm_num)]
        obtain ⟨d', hlog', hidx', hlo', hhi'⟩ := bucketIndexRaw_of_le sf (v + 1) h1
        have hdd : d' = d + 1 := by omega
        have hhalf : 0 < subHalf sf := subHalf_pos sf
        have hdiv : v / 2 ^ (d + 1) = 2 * subHalf sf - 1 := by
          have hv' : v = 2 ^ (d + 1) * (2 * subHalf sf) - 1 := by
            have hpow : 2 ^ (d + 1) * (2 * subHalf sf)
                = 2 ^ (Nat.log 2 v + 1) := by
              rw [← two_mul_subHalf]
              unfold subBucketCount
              rw [← pow_add]
              congr 1
              omega
            omega
          rw [hv', mul_pred_div _ _ (pow_pos (by norm_num) _)]
        have hdiv' : (v + 1) / 2 ^ (d + 2) = subHalf sf := by
          rw [heq]
          have hexp : Nat.log 2 v + 1 = sbcLog sf + d + 1 := by omega
          rw [hexp, Nat.pow_div (by omega) (by norm_num)]
          unfold subHalf
          congr 1
          omega
        rw [hidx, hidx', hdd, hdiv, hdiv']
        have hexpand : (d + 1 + 1) * subHalf sf
            = (d + 1) * subHalf sf + subHalf sf := by ring
        omega

lemma bucketIndexRaw_mono (sf : Nat) : Monotone (bucketIndexRaw sf) :=
  monotone_nat_of_le_succ (bucketIndexRaw_le_succ sf)

lemma bucketIndexRaw_lowerBound (sf i : Nat) :
    bucketIndexRaw sf (bucketLowerBound sf i) = i := by
  by_cases hi : i < subBucketCount sf
  · simp only [bucketLowerBound, if_pos hi, bucketIndexRaw]
  · push_neg at hi
    have hK1 : 1 ≤ sbcLog sf := one_le_sbcLog sf
    have hhalf : 0 < subHalf sf := subHalf_pos sf
    have h2 : subBucketCount sf = 2 * subHalf sf := two_mul_subHalf sf
    have hq : 2 ≤ i / subHalf sf := by
      rw [Nat.le_div_iff_mul_le hhalf]
      omega
    obtain ⟨d, hd⟩ : ∃ d, i / subHalf sf = d + 2 := ⟨i / subHalf sf - 2, by omega⟩
    obtain ⟨k, hk⟩ : ∃ k, sbcLog sf = k + 1 := ⟨sbcLog sf - 1, by omega⟩
    have hhalfk : subHalf sf = 2 ^ k := by
      unfold subHalf
      rw [hk]
      simp
    have hr : i % subHalf sf < subHalf sf := Nat.mod_lt _ hhalf
    have hlb : bucketLowerBound sf i
        = (subHalf sf + i % subHalf sf) * 2 ^ (d + 1) := by
      unfold bucketLowerBound
      rw [if_neg (by omega), hd, show d + 2 - 1 = d + 1 from by omega]
    have hlow : 2 ^ (k + (d + 1)) ≤ bucketLowerBound sf i := by
      rw [hlb, pow_add, ← hhalfk]
      exact Nat.mul_le_mul_right _ (by omega)
    have hup : bucketLowerBound sf i < 2 ^ (k + (d + 1) + 1) := by
      rw [hlb]
      have hlt2 : subHalf sf + i % subHalf sf < 2 * subHalf sf := by omega
      calc (subHalf sf + i % subHalf sf) * 2 ^ (d + 1)
          < (2 * subHalf sf) * 2 ^ (d + 1) :=
            (Nat.mul_lt_mul_right (pow_pos (by norm_num) _)).mpr hlt2
        _ = 2 ^ (k + (d + 1) + 1) := by
            rw [hhalfk, ← pow_succ']
            rw [← pow_add]
            congr 1
            omega
    have hlog : Nat.log 2 (bucketLowerBound sf i) = k + (d + 1) :=
      Nat.log_eq_of_pow_le_of_lt_pow hlow hup
    have hlbge : subBucketCount sf ≤ bucketLowerBound sf i := by
      have hsle : 2 * subHalf sf ≤ 2 ^ (k + (d + 1)) := by
        rw [hhalfk, ← pow_succ']
        exact Nat.pow_le_pow_right (by norm_num) (by omega)
      omega
    obtain ⟨d', hlog', hidx', _, _⟩ := bucketIndexRaw_of_le sf _ hlbge
    have hdd : d' = d := by omega
    have hdiv : bucketLowerBound sf i / 2 ^ (d + 1)
        = subHalf sf + i % subHalf sf := by
      rw [hlb, Nat.mul_div_cancel _ (pow_pos (by norm_num) _)]
    rw [hidx', hdd, hdiv]
    have hmod := Nat.div_add_mod i (subHalf sf)
    rw [hd] at hmod
    have hexp : (d + 1) * subHalf sf + (subHalf sf + i % subHalf sf)
        = subHalf sf * (d + 2) + i % subHalf sf := by ring
    omega

lemma bucketLowerBound_le (sf v : Nat) :
    bucketLowerBound sf (bucketIndexRaw sf v) ≤ v := by
  by_cases hv : v < subBucketCount sf
  · simp only [bucketIndexRaw, if_pos hv, bucketLowerBound]
    exact le_rfl
  · push_neg at hv
    obtain ⟨d, hlog, hidx, hlo, hhi⟩ := bucketIndexRaw_of_le sf v hv
    have hhalf : 0 < subHalf sf := subHalf_pos sf
    have hidxge : subBucketCount sf ≤ bucketIndexRaw sf v := by
      have hmul : subHalf sf ≤ (d + 1) * subHalf sf :=
        Nat.le_mul_of_pos_left _ (by omega)
      rw [two_mul_subHalf sf, hidx]
      omega
    have hdecomp : (d + 1) * subHalf sf + v / 2 ^ (d + 1)
        = (v / 2 ^ (d + 1) - subHalf sf) + subHalf sf * (d + 2) := by
      have h1 : (d + 1) * subHalf sf + subHalf sf = subHalf sf * (d + 2) := by
        ring
      omega
    have hq : bucketIndexRaw sf v / subHalf sf = d + 2 := by
      rw [hidx, hdecomp, Nat.add_mul_div_left _ _ hhalf,
        Nat.div_eq_of_lt (by omega)]
      omega
    have hrm : bucketIndexRaw sf v % subHalf sf
        = v / 2 ^ (d + 1) - subHalf sf := by
      rw [hidx, hdecomp, Nat.add_mul_mod_self_left,
        Nat.mod_eq_of_lt (by omega)]
    unfold bucketLowerBound
    rw [if_neg (by omega), hq, hrm]
    have hws : subHalf sf + (v / 2 ^ (d + 1) - subHalf sf) = v / 2 ^ (d + 1) := by
      omega
    rw [hws, show d + 2 - 1 = d + 1 from by omega]
    exact Nat.div_mul_le_self v _

lemma bucketLowerBound_mono (sf : Nat) : Monotone (bucketLowerBound sf) := by
  intro i j hij
  by_contra hlt
  push_neg at hlt
  have h1 : bucketIndexRaw sf (bucketLowerBound sf j)
      ≤ bucketIndexRaw sf (bucketLowerBound sf i) :=
    bucketIndexRaw_mono sf (le_of_lt hlt)
  rw [bucketIndexRaw_lowerBound, bucketIndexRaw_lowerBound] at h1
  have hij' : i = j := le_antisymm hij h1
  subst hij'
  exact absurd hlt (lt_irrefl _)

lemma counterStep_nonclear_delta (v : Int) (op : CounterOp)
    (h : op ≠ CounterOp.clear) : counterStep v op = v + opDelta op := by
  cases op with
  | incr n => simp [counterStep, counter_incr, opDelta]
  | decr n => simp [counterStep, counter_decr, opDelta, Int.sub_eq_add_neg]
  | clear => exact absurd rfl h

lemma segStep_delta_sum (acc : List CounterOp) (op : CounterOp)
    (h : op ≠ CounterOp.clear) :
    ((segStep acc op).map opDelta).sum = (acc.map opDelta).sum + opDelta op := by
  cases op with
  | incr n => simp [segStep, List.concat_eq_append]
  | decr n => simp [segStep, List.concat_eq_append]
  | clear => exact absurd rfl h

lemma foldl_counterStep_seg :
    ∀ (l : List CounterOp) (v : Int) (acc : List CounterOp),
      v = (acc.map opDelta).sum →
      l.foldl counterStep v = ((l.foldl segStep acc).map opDelta).sum := by
  intro l
  induction l with
  | nil => intro v acc hv; simpa using hv
  | cons op rest ih =>
    intro v acc hv
    by_cases hc : op = CounterOp.clear
    · subst hc
      simp only [List.foldl_cons]
      exact ih 0 [] (by simp [counterStep, counter_clear, segStep])
    · simp only [List.foldl_cons]
      refine ih (counterStep v op) (segStep acc op) ?_
      rw [counterStep_nonclear_delta v op hc, segStep_delta_sum acc op hc, hv]

lemma foldl_counterStep_no_clear :
    ∀ (l : List CounterOp) (v : Int), CounterOp.clear ∉ l →
      l.foldl counterStep v = v + (l.map opDelta).sum := by
  intro l
  induction l with
  | nil => intro v _; simp
  | cons op rest ih =>
    intro v hmem
    have hop : op ≠ CounterOp.clear := by
      intro h; exact hmem (by simp [h])
    have hrest : CounterOp.clear ∉ rest := by
      intro h; exact hmem (by simp [h])
    simp only [List.foldl_cons, List.map_cons, List.sum_cons]
    rw [ih (counterStep v op) hrest, counterStep_nonclear_delta v op hop]
    ring

/-- C3: for every sequence of increment/decrement/clear operations,
count() returns the net sum of all increments minus all decrements applied
since creation or since the last clear; a fresh counter reads zero and a
clear resets the value to zero. -/
theorem counter_count_net_sum (ops : List CounterOp) :
    counter_count (counterRun ops) = ((sinceLastClear ops).map opDelta).sum ∧
    counter_count (counterRun []) = 0 ∧
    counter_count (counterRun (ops ++ [CounterOp.clear])) = 0 := by
  refine ⟨?_, by simp [counter_count, counterRun, counter_new], ?_⟩
  · exact foldl_counterStep_seg ops counter_new [] (by simp [counter_new])
  · simp [counter_count, counterRun, List.foldl_append, counterStep, counter_clear]

/-- C10: an interleaved concurrent execution of atomic increment and
decrement calls is a sequential execution of the same multiset of
operations in some order; whatever the order, the final count equals the
net sum of all deltas applied, so no update is lost. -/
theorem counter_no_lost_updates (l l' : List CounterOp)
    (hperm : l.Perm l') (hnoclear : CounterOp.clear ∉ l) :
    counter_count (counterRun l') = (l.map opDelta).sum ∧
    counterRun l' = counterRun l := by
  have hnoclear' : CounterOp.clear ∉ l' := fun h => hnoclear (hperm.mem_iff.mpr h)
  have h1 : counterRun l' = (l'.map opDelta).sum := by
    have := foldl_counterStep_no_clear l' counter_new hnoclear'
    simpa [counterRun, counter_new] using this
  have h2 : counterRun l = (l.map opDelta).sum := by
    have := foldl_counterStep_no_clear l counter_new hnoclear
    simpa [counterRun, counter_new] using this
  have hsum : (l'.map opDelta).sum = (l.map opDelta).sum :=
    (hperm.map opDelta).symm.sum_eq
  exact ⟨by rw [counter_count, h1, hsum], by rw [h1, hsum, h2]⟩

/-- C10 witness: a concrete interleaving of increment(3) and decrement(5)
in either order yields the same final count, the net sum -2. -/
theorem counter_no_lost_updates_witness :
    counter_count
        (counterRun [CounterOp.decr 5, CounterOp.incr 3]) =
      ([CounterOp.incr 3, CounterOp.decr 5].map opDelta).sum ∧
    counterRun [CounterOp.decr 5, CounterOp.incr 3] =
      counterRun [CounterOp.incr 3, CounterOp.decr 5] :=
  counter_no_lost_updates [CounterOp.incr 3, CounterOp.decr 5]
    [CounterOp.decr 5, CounterOp.incr 3]
    (List.Perm.swap (CounterOp.decr 5) (CounterOp.incr 3) [])
    (by decide)

lemma clampValue_mem (cfg : HistConfig) (v : Nat) (h1 : cfg.low ≤ v)
    (h2 : v ≤ cfg.high) : clampValue cfg v = v := by
  unfold clampValue
  rw [Nat.min_eq_left h2, Nat.max_eq_right h1]

lemma clampValue_of_lt_low (cfg : HistConfig) (v : Nat) (hv : v < cfg.low)
    (hlh : cfg.low ≤ cfg.high) : clampValue cfg v = cfg.low := by
  unfold clampValue
  rw [Nat.min_eq_left (le_trans (le_of_lt hv) hlh), Nat.max_eq_left (le_of_lt hv)]

lemma clampValue_of_high_lt (cfg : HistConfig) (v : Nat) (hv : cfg.high < v)
    (hlh : cfg.low ≤ cfg.high) : clampValue cfg v = cfg.high := by
  unfold clampValue
  rw [Nat.min_eq_right (le_of_lt hv), Nat.max_eq_right hlh]

lemma clampValue_le_high (cfg : HistConfig) (v : Nat)
    (hlh : cfg.low ≤ cfg.high) : clampValue cfg v ≤ cfg.high :=
  max_le hlh (min_le_right _ _)

lemma low_le_clampValue (cfg : HistConfig) (v : Nat) :
    cfg.low ≤ clampValue cfg v :=
  le_max_left _ _

lemma clampValue_mono (cfg : HistConfig) : Monotone (clampValue cfg) :=
  fun _ _ hab => max_le_max le_rfl (min_le_min hab le_rfl)

lemma bucket_of_le_high (cfg : HistConfig) (hlh : cfg.low ≤ cfg.high)
    (v : Nat) : bucket_of cfg v ≤ bucketIndexRaw cfg.sigfig cfg.high :=
  bucketIndexRaw_mono _ (clampValue_le_high cfg v hlh)

lemma bucket_of_lt_bucketCount (cfg : HistConfig) (hlh : cfg.low ≤ cfg.high)
    (v : Nat) : bucket_of cfg v < bucketCount cfg :=
  lt_of_le_of_lt (bucket_of_le_high cfg hlh v) (Nat.lt_succ_self _)

lemma idxLow_le_bucket_of (cfg : HistConfig) (v : Nat) :
    bucketIndexRaw cfg.sigfig cfg.low ≤ bucket_of cfg v :=
  bucketIndexRaw_mono _ (low_le_clampValue cfg v)

lemma histInv_new (low high sf : Nat) (h0 : Histogram)
    (hnew : histogram_new low high sf = Except.ok h0) : histInv h0 := by
  by_cases hc : low < high ∧ 1 ≤ sf ∧ sf ≤ 5
  · rw [histogram_new, if_pos hc] at hnew
    injection hnew with hnew
    subst hnew
    refine ⟨hc, ?_, fun j _ => rfl⟩
    simp [sumCounts]
  · rw [histogram_new, if_neg hc] at hnew
    exact absurd hnew (by simp)

lemma histInv_incr (h : Histogram) (v c : Nat) (hI : histInv h) :
    histInv (histogram_incr h v c) := by
  obtain ⟨hvc, htot, hzero⟩ := hI
  have hlh : h.cfg.low ≤ h.cfg.high := le_of_lt hvc.1
  have hmem : bucket_of h.cfg v ∈ Finset.range (bucketCount h.cfg) :=
    Finset.mem_range.mpr (bucket_of_lt_bucketCount h.cfg hlh v)
  refine ⟨hvc, ?_, ?_⟩
  · show h.total + c = sumCounts (histogram_incr h v c)
    unfold sumCounts histogram_incr
    rw [Finset.sum_update_of_mem hmem]
    rw [sumCounts, Finset.sum_eq_sum_diff_singleton_add hmem] at htot
    omega
  · intro j hj
    rw [show (histogram_incr h v c).cfg = h.cfg from rfl] at hj
    have hlo := idxLow_le_bucket_of h.cfg v
    have hhi := bucket_of_le_high h.cfg hlh v
    have hne : j ≠ bucket_of h.cfg v := by
      rcases hj with hj | hj <;> omega
    show Function.update h.counts (bucket_of h.cfg v) _ j = 0
    rw [Function.update_noteq hne]
    exact hzero j hj

lemma histInv_decr (h : Histogram) (v c : Nat) (hI : histInv h) :
    histInv (histogram_decr h v c) := by
  obtain ⟨hvc, htot, hzero⟩ := hI
  have hlh : h.cfg.low ≤ h.cfg.high := le_of_lt hvc.1
  have hmem : bucket_of h.cfg v ∈ Finset.range (bucketCount h.cfg) :=
    Finset.mem_range.mpr (bucket_of_lt_bucketCount h.cfg hlh v)
  have hminle : min c (h.counts (bucket_of h.cfg v)) ≤ h.counts (bucket_of h.cfg v) :=
    min_le_right _ _
  refine ⟨hvc, ?_, ?_⟩
  · show h.total - min c (h.counts (bucket_of h.cfg v)) = sumCounts (histogram_decr h v c)
    unfold sumCounts histogram_decr
    rw [Finset.sum_update_of_mem hmem]
    rw [sumCounts, Finset.sum_eq_sum_diff_singleton_add hmem] at htot
    omega
  · intro j hj
    rw [show (histogram_decr h v c).cfg = h.cfg from rfl] at hj
    have hlo := idxLow_le_bucket_of h.cfg v
    have hhi := bucket_of_le_high h.cfg hlh v
    have hne : j ≠ bucket_of h.cfg v := by
      rcases hj with hj | hj <;> omega
    show Function.update h.counts (bucket_of h.cfg v) _ j = 0
    rw [Function.update_noteq hne]
    exact hzero j hj

lemma histInv_clear (h : Histogram) (hI : histInv h) :
    histInv (histogram_clear h) := by
  refine ⟨hI.1, ?_, fun j _ => rfl⟩
  simp [sumCounts, histogram_clear]

lemma histInv_run (h : Histogram) (l : List HistOp) (hI : histInv h) :
    histInv (runHistOps h l) := by
  induction l generalizing h with
  | nil => exact hI
  | cons op rest ih =>
    show histInv (List.foldl applyHistOp (applyHistOp h op) rest)
    refine ih (applyHistOp h op) ?_
    cases op with
    | incr v c => exact histInv_incr h v c hI
    | decr v c => exact histInv_decr h v c hI
    | clear => exact histInv_clear h hI

lemma cumCount_mono (h : Histogram) {i j : Nat} (hij : i ≤ j) :
    cumCount h i ≤ cumCount h j :=
  Finset.sum_le_sum_of_subset (Finset.range_subset.mpr (by omega))

lemma crossingGo_spec (h : Histogram) (t : Nat) :
    ∀ fuel i, t ≤ cumCount h (fuel + i) →
      t ≤ cumCount h (crossingGo h t fuel i) ∧
      i ≤ crossingGo h t fuel i ∧
      ∀ j, i ≤ j → j < crossingGo h t fuel i → cumCount h j < t := by
  intro fuel
  induction fuel with
  | zero =>
    intro i hex
    refine ⟨by simpa using hex, le_rfl, ?_⟩
    intro j hij hjl
    simp only [crossingGo] at hjl
    omega
  | succ n ih =>
    intro i hex
    by_cases hc : t ≤ cumCount h i
    · simp only [crossingGo, if_pos hc]
      exact ⟨hc, le_rfl, fun j hij hjl => by omega⟩
    · simp only [crossingGo, if_neg hc]
      have hex' : t ≤ cumCount h (n + (i + 1)) := by
        have harr : n + (i + 1) = n + 1 + i := by omega
        rw [harr]
        exact hex
      obtain ⟨h1, h2, h3⟩ := ih (i + 1) hex'
      refine ⟨h1, by omega, ?_⟩
      intro j hij hjl
      rcases Nat.lt_or_ge j (i + 1) with hj | hj
      · have hje : j = i := by omega
        subst hje
        exact Nat.lt_of_not_le hc
      · exact h3 j hj hjl

lemma percentile_isLeast (h : Histogram) (t : Nat) (hI : histInv h)
    (ht1 : 1 ≤ t) (htle : t ≤ h.total) :
    IsLeast (trackedCrossingSet h t)
      (max h.cfg.low (bucketLowerBound h.cfg.sigfig
        (crossingGo h t (bucketCount h.cfg) 0))) := by
  obtain ⟨hvc, htot_eq, hzero⟩ := hI
  have hlh : h.cfg.low ≤ h.cfg.high := le_of_lt hvc.1
  have hcumhigh : cumCount h (bucketIndexRaw h.cfg.sigfig h.cfg.high)
      = sumCounts h := rfl
  have hex : t ≤ cumCount h (bucketCount h.cfg + 0) := by
    have hmono := cumCount_mono h
      (show bucketIndexRaw h.cfg.sigfig h.cfg.high ≤ bucketCount h.cfg + 0 from
        by unfold bucketCount; omega)
    omega
  obtain ⟨hct, hc0, hleast⟩ := crossingGo_spec h t (bucketCount h.cfg) 0 hex
  set c := crossingGo h t (bucketCount h.cfg) 0 with hcdef
  have hchigh : c ≤ bucketIndexRaw h.cfg.sigfig h.cfg.high := by
    by_contra hcon
    push_neg at hcon
    have hlt := hleast _ (Nat.zero_le _) hcon
    omega
  have hclow : bucketIndexRaw h.cfg.sigfig h.cfg.low ≤ c := by
    by_contra hcon
    push_neg at hcon
    have hzero' : cumCount h c = 0 := by
      unfold cumCount
      refine Finset.sum_eq_zero ?_
      intro j hj
      rw [Finset.mem_range] at hj
      exact hzero j (Or.inl (by omega))
    omega
  have hlbc_le_high : bucketLowerBound h.cfg.sigfig c ≤ h.cfg.high :=
    le_trans (bucketLowerBound_mono _ hchigh) (bucketLowerBound_le _ _)
  have hrlow : h.cfg.low ≤ max h.cfg.low (bucketLowerBound h.cfg.sigfig c) :=
    le_max_left _ _
  have hrhigh : max h.cfg.low (bucketLowerBound h.cfg.sigfig c) ≤ h.cfg.high :=
    max_le hlh hlbc_le_high
  have hbr : bucket_of h.cfg (max h.cfg.low (bucketLowerBound h.cfg.sigfig c)) = c := by
    rcases le_or_lt h.cfg.low (bucketLowerBound h.cfg.sigfig c) with hcase | hcase
    · rw [max_eq_right hcase]
      unfold bucket_of
      rw [clampValue_mem _ _ hcase hlbc_le_high, bucketIndexRaw_lowerBound]
    · rw [max_eq_left (le_of_lt hcase)]
      have h1 : bucketIndexRaw h.cfg.sigfig (bucketLowerBound h.cfg.sigfig c)
          ≤ bucketIndexRaw h.cfg.sigfig h.cfg.low :=
        bucketIndexRaw_mono _ (le_of_lt hcase)
      rw [bucketIndexRaw_lowerBound] at h1
      have hceq : c = bucketIndexRaw h.cfg.sigfig h.cfg.low := by omega
      unfold bucket_of
      rw [clampValue_mem _ _ le_rfl hlh]
      omega
  constructor
  · simp only [trackedCrossingSet, Set.mem_setOf_eq]
    refine ⟨hrlow, hrhigh, ?_⟩
    rw [hbr]
    exact hct
  · intro u hu
    simp only [trackedCrossingSet, Set.mem_setOf_eq] at hu
    obtain ⟨hul, huh, hut⟩ := hu
    have hcu : c ≤ bucket_of h.cfg u := by
      by_contra hcon
      push_neg at hcon
      have hlt := hleast _ (Nat.zero_le _) hcon
      omega
    have h1 : bucketLowerBound h.cfg.sigfig c
        ≤ bucketLowerBound h.cfg.sigfig (bucket_of h.cfg u) :=
      bucketLowerBound_mono _ hcu
    have h2 : bucketLowerBound h.cfg.sigfig (bucket_of h.cfg u) ≤ u := by
      unfold bucket_of
      rw [clampValue_mem _ _ hul huh]
      exact bucketLowerBound_le _ _
    exact max_le hul (le_trans h1 h2)

lemma ceilNatDiv_le_iff (a b n : Nat) (hb : 0 < b) :
    ceilNatDiv a b ≤ n ↔ a ≤ n * b := by
  unfold ceilNatDiv
  rw [Nat.div_le_iff_le_mul_add_pred hb, Nat.mul_comm n b]
  omega

lemma percentileThreshold_zero (h : Histogram) : percentileThreshold h 0 = 1 := by
  simp [percentileThreshold, ceilNatDiv]

lemma percentileThreshold_le_iff (h : Histogram) (p : ℚ) (hp : 0 < p)
    (htot : 0 < h.total) (n : Nat) :
    percentileThreshold h p ≤ n ↔ p * (h.total : ℚ) ≤ (n : ℚ) := by
  have hdenq : (0 : ℚ) < (p.den : ℚ) := by
    exact_mod_cast p.pos
  have hnum : 0 ≤ p.num := Rat.num_nonneg.mpr (le_of_lt hp)
  have hpd : (p.num : ℚ) = p * (p.den : ℚ) :=
    (div_eq_iff (ne_of_gt hdenq)).mp (Rat.num_div_den p)
  have hqiff : p * (h.total : ℚ) ≤ (n : ℚ) ↔
      (p.num : ℚ) * (h.total : ℚ) ≤ (n : ℚ) * (p.den : ℚ) := by
    rw [← mul_le_mul_right hdenq]
    rw [mul_right_comm p ((h.total : ℚ)) ((p.den : ℚ)), ← hpd]
  rcases Nat.eq_zero_or_pos n with rfl | hn
  · have hl : ¬ (percentileThreshold h p ≤ 0) := by
      have h1 : 1 ≤ percentileThreshold h p := le_max_left _ _
      omega
    have hr : ¬ (p * (h.total : ℚ) ≤ ((0 : Nat) : ℚ)) := by
      push_neg
      rw [Nat.cast_zero]
      exact mul_pos hp (by exact_mod_cast htot)
    exact iff_of_false hl hr
  · have hmax : percentileThreshold h p ≤ n ↔
        ceilNatDiv (p.num.toNat * h.total) p.den ≤ n := by
      unfold percentileThreshold
      rw [max_le_iff]
      exact and_iff_right hn
    rw [hmax, ceilNatDiv_le_iff _ _ _ p.pos, hqiff]
    constructor
    · intro hc
      have h1 : (p.num.toNat : ℤ) * (h.total : ℤ) ≤ (n : ℤ) * (p.den : ℤ) := by
        exact_mod_cast hc
      rw [Int.toNat_of_nonneg hnum] at h1
      exact_mod_cast h1
    · intro hc
      have h1 : (p.num : ℤ) * (h.total : ℤ) ≤ (n : ℤ) * (p.den : ℤ) := by
        exact_mod_cast hc
      rw [← Int.toNat_of_nonneg hnum] at h1
      exact_mod_cast h1

/-- C1 (amended): for a histogram reachable through the API with
total_samples > 0 and p in [0, 1], percentile(p) returns the least
tracked value whose bucket's cumulative sample count reaches the
threshold max(1, ceil(p * total_samples)); for p > 0 that threshold
condition coincides with the spec's words, cumulative count at least
p * total_samples, so for p in (0, 1] the returned value is the smallest
tracked value the claim names (p = 0 instead reports the minimum
observed value's bucket representative, see the counterexample). -/
theorem histogram_percentile_least (h : Histogram) (p : ℚ) (hI : histInv h)
    (hp0 : 0 ≤ p) (hp1 : p ≤ 1) (htot : 0 < h.total) :
    ∃ v, histogram_percentile h p = Except.ok v ∧
      IsLeast (trackedCrossingSet h (percentileThreshold h p)) v ∧
      (0 < p →
        trackedCrossingSet h (percentileThreshold h p) = specCrossingSet h p) := by
  have ht1 : 1 ≤ percentileThreshold h p := le_max_left _ _
  have htle : percentileThreshold h p ≤ h.total := by
    rcases eq_or_lt_of_le hp0 with hz | hp
    · rw [← hz, percentileThreshold_zero]
      omega
    · rw [percentileThreshold_le_iff h p hp htot]
      calc p * (h.total : ℚ) ≤ 1 * (h.total : ℚ) :=
            mul_le_mul_of_nonneg_right hp1 (by positivity)
        _ = (h.total : ℚ) := one_mul _
  refine ⟨max h.cfg.low (bucketLowerBound h.cfg.sigfig
      (crossingGo h (percentileThreshold h p) (bucketCount h.cfg) 0)), ?_,
    percentile_isLeast h (percentileThreshold h p) hI ht1 htle, ?_⟩
  · unfold histogram_percentile
    rw [if_neg (by omega)]
  · intro hp
    unfold trackedCrossingSet specCrossingSet
    ext u
    simp only [Set.mem_setOf_eq]
    refine and_congr_right fun _ => and_congr_right fun _ => ?_
    rw [show histogram_samples h = h.total from rfl]
    exact percentileThreshold_le_iff h p hp htot _

/-- C2: histogram construction establishes, and every sequence of
increment, decrement and clear operations preserves, the invariant that
samples() equals the sum of all per-bucket counts. -/
theorem histogram_samples_eq_sumCounts (low high sf : Nat) (h0 : Histogram)
    (l : List HistOp) (hnew : histogram_new low high sf = Except.ok h0) :
    histogram_samples (runHistOps h0 l) = sumCounts (runHistOps h0 l) :=
  (histInv_run h0 l (histInv_new low high sf h0 hnew)).2.1

/-- C4: histogram construction succeeds exactly when low < high and the
significant figures lie in 1..5, and on every invalid input it fails
with InvalidRange, producing no histogram at all. -/
theorem histogram_new_validates (low high sf : Nat) :
    ((∃ h, histogram_new low high sf = Except.ok h) ↔
      (low < high ∧ 1 ≤ sf ∧ sf ≤ 5)) ∧
    (¬(low < high ∧ 1 ≤ sf ∧ sf ≤ 5) →
      histogram_new low high sf = Except.error HistError.InvalidRange) := by
  constructor
  · constructor
    · rintro ⟨h, hh⟩
      by_contra hc
      rw [histogram_new, if_neg hc] at hh
      exact absurd hh (by simp)
    · intro hc
      exact ⟨_, by rw [histogram_new, if_pos hc]⟩
  · intro hc
    rw [histogram_new, if_neg hc]

/-- C5: a percentile query on a histogram with zero samples fails with
EmptyHistogram for every p in [0, 1]; the operation is a pure function of
the histogram, so the failure leaves the histogram unchanged. -/
theorem histogram_percentile_empty (h : Histogram) (p : ℚ)
    (hempty : histogram_samples h = 0) (hp0 : 0 ≤ p) (hp1 : p ≤ 1) :
    histogram_percentile h p = Except.error HistError.EmptyHistogram := by
  unfold histogram_samples at hempty
  unfold histogram_percentile
  rw [if_pos hempty]

/-- C6: the bucket mapping is deterministic and monotone on the tracked
range, and every bucket index it produces lies below bucket_count. -/
theorem bucket_of_monotone_in_range (cfg : HistConfig) (v1 v2 : Nat)
    (hcfg : ValidCfg cfg) (hl : cfg.low ≤ v1) (h12 : v1 ≤ v2)
    (hh : v2 ≤ cfg.high) :
    bucket_of cfg v1 ≤ bucket_of cfg v2 ∧
    (v1 = v2 → bucket_of cfg v1 = bucket_of cfg v2) ∧
    bucket_of cfg v1 < bucketCount cfg ∧
    bucket_of cfg v2 < bucketCount cfg := by
  have hlh : cfg.low ≤ cfg.high := le_of_lt hcfg.1
  exact ⟨bucketIndexRaw_mono _ (clampValue_mono cfg h12),
    fun he => by rw [he],
    bucket_of_lt_bucketCount cfg hlh v1,
    bucket_of_lt_bucketCount cfg hlh v2⟩

/-- C7: decrement clamps at zero instead of wrapping: the bucket count
becomes max(0, old - c) and total_samples drops by exactly the amount
removed, never going below zero. -/
theorem histogram_decr_clamped (h : Histogram) (v c : Nat) (hI : histInv h) :
    ((histogram_count (histogram_decr h v c) v : Int)
        = max 0 ((histogram_count h v : Int) - (c : Int))) ∧
    ((histogram_decr h v c).total : Int)
        = (h.total : Int) - min (c : Int) (histogram_count h v : Int) ∧
    (0 : Int) ≤ ((histogram_decr h v c).total : Int) := by
  obtain ⟨hvc, htot_eq, hzero⟩ := hI
  have hlh : h.cfg.low ≤ h.cfg.high := le_of_lt hvc.1
  have hcount_le : h.counts (bucket_of h.cfg v) ≤ sumCounts h := by
    unfold sumCounts
    refine Finset.single_le_sum (fun j _ => Nat.zero_le _) ?_
    exact Finset.mem_range.mpr (bucket_of_lt_bucketCount h.cfg hlh v)
  have hcnew : histogram_count (histogram_decr h v c) v
      = h.counts (bucket_of h.cfg v)
          - min c (h.counts (bucket_of h.cfg v)) := by
    unfold histogram_count
    rw [show (histogram_decr h v c).cfg = h.cfg from rfl]
    show Function.update h.counts (bucket_of h.cfg v) _ (bucket_of h.cfg v) = _
    rw [Function.update_same]
  have htnew : (histogram_decr h v c).total
      = h.total - min c (h.counts (bucket_of h.cfg v)) := rfl
  have hcold : histogram_count h v = h.counts (bucket_of h.cfg v) := rfl
  refine ⟨?_, ?_, by positivity⟩
  · rw [hcnew, hcold]
    rcases le_total c (h.counts (bucket_of h.cfg v)) with hle | hle
    · rw [Nat.min_eq_left hle, Nat.cast_sub hle, max_eq_right]
      exact sub_nonneg.mpr (by exact_mod_cast hle)
    · rw [Nat.min_eq_right hle, Nat.sub_self, max_eq_left]
      · simp
      · exact sub_nonpos.mpr (by exact_mod_cast hle)
  · rw [htnew, hcold]
    have hremle : min c (h.counts (bucket_of h.cfg v)) ≤ h.total := by
      have := min_le_right c (h.counts (bucket_of h.cfg v))
      omega
    rw [Nat.cast_sub hremle, Nat.cast_min]

/-- C8: an out-of-range value on increment or decrement is clamped to the
nearest boundary of the tracked range and the operation proceeds there;
it is never an error. -/
theorem histogram_out_of_range_clamps (h : Histogram) (v c : Nat)
    (hlh : h.cfg.low ≤ h.cfg.high) :
    (v < h.cfg.low →
      histogram_incr h v c = histogram_incr h h.cfg.low c ∧
      histogram_decr h v c = histogram_decr h h.cfg.low c) ∧
    (h.cfg.high < v →
      histogram_incr h v c = histogram_incr h h.cfg.high c ∧
      histogram_decr h v c = histogram_decr h h.cfg.high c) := by
  constructor
  · intro hv
    have hb : bucket_of h.cfg v = bucket_of h.cfg h.cfg.low := by
      unfold bucket_of
      rw [clampValue_of_lt_low _ _ hv hlh, clampValue_mem _ _ le_rfl hlh]
    exact ⟨by unfold histogram_incr; rw [hb], by unfold histogram_decr; rw [hb]⟩
  · intro hv
    have hb : bucket_of h.cfg v = bucket_of h.cfg h.cfg.high := by
      unfold bucket_of
      rw [clampValue_of_high_lt _ _ hv hlh, clampValue_mem _ _ hlh le_rfl]
    exact ⟨by unfold histogram_incr; rw [hb], by unfold histogram_decr; rw [hb]⟩

/-- C9: the declared return kind of counter_count in counter.h (a
pointer) disagrees with the way example.c consumes the result (a plain
integer value, via printf %d), witnessing the header slip the claim is
right about. -/
theorem counter_count_return_mismatch :
    counter_count_declared_return = CReturnKind.pointerValue ∧
    counter_count_example_return = CReturnKind.intValue ∧
    counter_count_declared_return ≠ counter_count_example_return :=
  ⟨rfl, rfl, by decide⟩

/-- C1 counterexample: on the histogram over [1, 100] holding one sample
at 50, percentile(0.0) returns 50 (the minimum observed value's bucket
representative), yet the tracked value 1 also satisfies the claim's
defining inequality cumulative count at least 0 * total_samples, so the
value returned at p = 0 is not the smallest tracked value satisfying
that inequality, contradicting the claim read at p = 0. -/
theorem histogram_percentile_zero_not_least :
    histogram_percentile exampleHist 0 = Except.ok 50 ∧
    1 ∈ specCrossingSet exampleHist 0 ∧
    ¬ IsLeast (specCrossingSet exampleHist 0) 50 := by
  have hmem : (1 : Nat) ∈ specCrossingSet exampleHist 0 := by
    simp only [specCrossingSet, Set.mem_setOf_eq]
    refine ⟨by decide, by decide, ?_⟩
    rw [zero_mul]
    positivity
  refine ⟨by rfl, hmem, ?_⟩
  intro hleast
  have h50 : (50 : Nat) ≤ 1 := hleast.2 hmem
  omega

/-- C1 witness: the median query on the histogram with a single sample at
50 succeeds and its result is the least tracked value whose cumulative
count reaches the threshold, which for p = 1/2 > 0 is the set named by
the spec's own inequality. -/
theorem histogram_percentile_least_witness :
    ∃ v, histogram_percentile exampleHist (1 / 2) = Except.ok v ∧
      IsLeast (trackedCrossingSet exampleHist
        (percentileThreshold exampleHist (1 / 2))) v ∧
      (0 < (1 / 2 : ℚ) →
        trackedCrossingSet exampleHist (percentileThreshold exampleHist (1 / 2))
          = specCrossingSet exampleHist (1 / 2)) :=
  histogram_percentile_least exampleHist (1 / 2)
    (histInv_incr ⟨⟨1, 100, 1⟩, fun _ => 0, 0⟩ 50 1
      (histInv_new 1 100 1 ⟨⟨1, 100, 1⟩, fun _ => 0, 0⟩ rfl))
    (by norm_num) (by norm_num) (by decide)

/-- C2 witness: a concrete run of increments and a decrement on a freshly
constructed histogram keeps samples() equal to the sum of all bucket
counts. -/
theorem histogram_samples_eq_sumCounts_witness :
    histogram_samples (runHistOps ⟨⟨1, 100, 1⟩, fun _ => 0, 0⟩
        [HistOp.incr 1 1, HistOp.incr 50 2, HistOp.decr 50 1]) =
      sumCounts (runHistOps ⟨⟨1, 100, 1⟩, fun _ => 0, 0⟩
        [HistOp.incr 1 1, HistOp.incr 50 2, HistOp.decr 50 1]) :=
  histogram_samples_eq_sumCounts 1 100 1 ⟨⟨1, 100, 1⟩, fun _ => 0, 0⟩
    [HistOp.incr 1 1, HistOp.incr 50 2, HistOp.decr 50 1] rfl

/-- C5 witness: a percentile query on a freshly constructed (empty)
histogram fails with EmptyHistogram. -/
theorem histogram_percentile_empty_witness :
    histogram_percentile ⟨⟨1, 100, 1⟩, fun _ => 0, 0⟩ (1 / 2)
      = Except.error HistError.EmptyHistogram :=
  histogram_percentile_empty ⟨⟨1, 100, 1⟩, fun _ => 0, 0⟩ (1 / 2) rfl
    (by norm_num) (by norm_num)

/-- C6 witness: concrete monotonicity and bounds of the bucket mapping on
the histogram configuration over [1, 100] with one significant figure. -/
theorem bucket_of_monotone_in_range_witness :
    bucket_of ⟨1, 100, 1⟩ 10 ≤ bucket_of ⟨1, 100, 1⟩ 50 ∧
    ((10 : Nat) = 50 → bucket_of ⟨1, 100, 1⟩ 10 = bucket_of ⟨1, 100, 1⟩ 50) ∧
    bucket_of ⟨1, 100, 1⟩ 10 < bucketCount ⟨1, 100, 1⟩ ∧
    bucket_of ⟨1, 100, 1⟩ 50 < bucketCount ⟨1, 100, 1⟩ :=
  bucket_of_monotone_in_range ⟨1, 100, 1⟩ 10 50
    (by exact ⟨by decide, by decide, by decide⟩)
    (by norm_num) (by norm_num) (by norm_num)

/-- C7 witness: decrementing 10 samples at value 50 from the histogram
holding a single sample there clamps the bucket to zero and lowers
total_samples by exactly the one sample actually removed. -/
theorem histogram_decr_clamped_witness :
    ((histogram_count (histogram_decr exampleHist 50 10) 50 : Int)
        = max 0 ((histogram_count exampleHist 50 : Int) - ((10 : Nat) : Int))) ∧
    ((histogram_decr exampleHist 50 10).total : Int)
        = (exampleHist.total : Int)
          - min ((10 : Nat) : Int) (histogram_count exampleHist 50 : Int) ∧
    (0 : Int) ≤ ((histogram_decr exampleHist 50 10).total : Int) :=
  histogram_decr_clamped exampleHist 50 10
    (histInv_incr ⟨⟨1, 100, 1⟩, fun _ => 0, 0⟩ 50 1
      (histInv_new 1 100 1 ⟨⟨1, 100, 1⟩, fun _ => 0, 0⟩ rfl))

/-- C8 witness: on a histogram tracking [10, 100], incrementing at the
out-of-range value 3 lands in the bucket of the low boundary 10, and
decrementing at 200 lands in the bucket of the high boundary 100. -/
theorem histogram_out_of_range_clamps_witness :
    (histogram_incr (⟨⟨10, 100, 1⟩, fun _ => 0, 0⟩ : Histogram) 3 7
        = histogram_incr ⟨⟨10, 100, 1⟩, fun _ => 0, 0⟩ 10 7) ∧
    (histogram_decr (⟨⟨10, 100, 1⟩, fun _ => 0, 0⟩ : Histogram) 200 7
        = histogram_decr ⟨⟨10, 100, 1⟩, fun _ => 0, 0⟩ 100 7) :=
  ⟨((histogram_out_of_range_clamps ⟨⟨10, 100, 1⟩, fun _ => 0, 0⟩ 3 7
      (by decide)).1 (by decide)).1,
   ((histogram_out_of_range_clamps ⟨⟨10, 100, 1⟩, fun _ => 0, 0⟩ 200 7
      (by decide)).2 (by decide)).2⟩
